import Mathlib

/-!
# Verification of the Room reconciliation engine (src/lib/room.cpp)

Shallow embedding of the `Room` class of this repository.  The embedding
follows `src/lib/room.cpp` line by line:

* `User*` objects live in the connection-wide registry, one object per user
  id, so C++ pointer equality between `User*` values is modelled as equality
  of user ids.  A `User` value here is a pair of the id and the display name
  the object carries at the moment it is used.
* `QMultiHash<QString, User*> users` is modelled as an association list
  `List (String × User)`; `insert` prepends (Qt returns the most recently
  inserted values first), `values(key)` filters by key, and
  `remove(key, value)` drops every entry with that key and that user.
* `QList<User*> usersLeft` is a `List User`, with `contains` again comparing
  user ids (pointer identity).
* Qt signal emissions are returned as an explicit `List Emit` output.
* `std::partial_sort_copy` with a two-element destination (used by
  `Room::Private::roomNameFromMemberNames`) is modelled after the standard
  heap-based implementation (copy, make_heap, scan with adjust_heap,
  sort_heap), specialised to two slots.
-/

/-- A user object from the connection registry: stable id plus the display
name currently carried by the object.  Pointer identity of `User*` is id
equality. -/
structure User where
  uid : String
  name : String
deriving DecidableEq

/-- The membership registry `QMultiHash<QString, User*>`: entries are
(display-name key, user), most recently inserted first. -/
abbrev Registry := List (String × User)

/-- MembershipType values of `RoomMemberEvent` (MembershipType).  Modelled from
the spec: Join, Leave and other values (Invite stands for the rest, which
the handler ignores). -/
inductive MembershipType
  | join
  | leave
  | invite
deriving DecidableEq

/-- Event payloads, a closed variant over the event kinds dispatched by
`Room::processStateEvent`; `message` stands for every kind the state-event
handler does not recognise. -/
inductive EventPayload
  | roomName (name : String)
  | roomAliases (aliases : List String)
  | roomCanonicalAlias (a : String)
  | roomTopic (topic : String)
  | roomMember (userId : String) (displayname : String) (membership : MembershipType)
  | message
deriving DecidableEq

/-- An event: the intra-timeline ordering key used by
`Event::findEarliestAfterMe`, plus the payload. -/
structure Event where
  key : Nat
  payload : EventPayload
deriving DecidableEq

/-- Qt signal emissions and signal (dis)connections performed by `Room`,
recorded in order. -/
inductive Emit
  | namesChanged
  | topicChanged
  | userAdded (uid : String)
  | userRemoved (uid : String)
  | connectRename (uid : String)
  | disconnectRename (uid : String)
  | newMessage (ev : Event)
deriving DecidableEq

/-- Local-user join state of the room. -/
inductive JoinState
  | join
  | leave
  | invite
deriving DecidableEq

/-- The fields of `Room::Private`, together with the connection-side state
the room reads through its `connection` pointer: `myId` is the id of
`connection->user()`, the connection's local user; `userNames` is the
display name currently carried by each `User` object of the connection
registry (empty when the object was never given one); `renameConnections`
records which users' `nameChanged` signals are connected to this room's
`userRenamed` slot (connected at Join, disconnected at Leave). -/
structure RoomState where
  myId : String
  id : String
  aliases : List String
  canonicalAlias : String
  name : String
  displayname : String
  topic : String
  joinState : JoinState
  highlightCount : Int
  notificationCount : Int
  users : Registry
  usersLeft : List User
  userNames : List (String × String)
  renameConnections : List String
  messageEvents : List Event
  prevBatch : String
  gettingNewContent : Bool
deriving DecidableEq

/-- `QMultiHash::values(key)`: the users stored under `key`, most recently
inserted first. -/
def valuesOf (r : Registry) (k : String) : List User :=
  (r.filter (fun e => e.1 == k)).map (fun e => e.2)

/-- `QList<User*>::contains(u)` (and `values(key).contains(u)`): pointer
comparison, i.e. user-id comparison. -/
def containsUser (l : List User) (u : User) : Bool :=
  l.any (fun v => v.uid == u.uid)

/-- `QMultiHash::remove(key, value)`: drop every entry with this key and
this user. -/
def removeUser (r : Registry) (k : String) (u : User) : Registry :=
  r.filter (fun e => !(e.1 == k && e.2.uid == u.uid))

/-- Does the registry hold the user (under any name key)? -/
def registryContains (r : Registry) (uid : String) : Bool :=
  r.any (fun e => e.2.uid == uid)

/-- How many registry entries hold the user? -/
def registryCount (r : Registry) (uid : String) : Nat :=
  r.countP (fun e => e.2.uid == uid)

/-- How many entries of a user list hold the user? -/
def leftCount (l : List User) (uid : String) : Nat :=
  l.countP (fun u => u.uid == uid)

/-- The `Room::Room` constructor: joinState Join, placeholder displayname
`"Empty room <id>"`, pagination flag down, everything else empty.  (The two
counters are uninitialised in the C++ constructor; 0 is used here, no claim
depends on them.) -/
def initRoom (myId id : String) : RoomState :=
  { myId := myId
    id := id
    aliases := []
    canonicalAlias := ""
    name := ""
    displayname := "Empty room <" ++ id ++ ">"
    topic := ""
    joinState := JoinState.join
    highlightCount := 0
    notificationCount := 0
    users := []
    usersLeft := []
    userNames := []
    renameConnections := []
    messageEvents := []
    prevBatch := ""
    gettingNewContent := false }

/-- Lexicographic comparison of character lists by code point. -/
def charListLt : List Char → List Char → Bool
  | [], [] => false
  | [], _ :: _ => true
  | _ :: _, [] => false
  | a :: as, b :: bs =>
    if a.toNat < b.toNat then true
    else if b.toNat < a.toNat then false
    else charListLt as bs

/-- `QString::operator<`: lexicographic comparison of the two strings
(by code unit; identical to code-point order on the ASCII identifiers used
here). -/
def stringLt (s t : String) : Bool :=
  charListLt s.data t.data

/-- The member-selection comparator of
`Room::Private::roomNameFromMemberNames`:
`u1 != connection->user() && u1->id() < u2->id()`. -/
def memberCmp (myId : String) (u1 u2 : User) : Bool :=
  u1.uid != myId && stringLt u1.uid u2.uid

/-- One step of the scan phase of `std::partial_sort_copy` with a two-slot
destination holding the max-heap `h` (greatest first): if the new element
compares below the heap front, it replaces the front and the heap is
re-established. -/
def firstTwoStep (comp : User → User → Bool) (h : User × User) (x : User) : User × User :=
  if comp x h.1 then
    if comp h.2 x then (x, h.2) else (h.2, x)
  else h

/-- `std::partial_sort_copy` of `a :: b :: rest` into a two-slot
destination: copy the first two, `make_heap`, scan the rest, `sort_heap`
(which for two slots swaps the heap).  Returns the two smallest elements in
comparator order. -/
def firstTwo (comp : User → User → Bool) (a b : User) (rest : List User) : User × User :=
  let h0 := if comp b a then (a, b) else (b, a)
  let h := rest.foldl (firstTwoStep comp) h0
  (h.2, h.1)

/-- `Room::roomMembername` (CS spec 11.2.2.3): empty bare name falls back to
the id; a unique bare name is used as is; the `#ifndef NDEBUG` sanity check
returns the bare name when the user is not among its namesakes; otherwise
the name is disambiguated as `"name <id>"`. -/
def roomMembername (users : Registry) (u : User) : String :=
  if u.name = "" then u.uid
  else
    let namesakes := valuesOf users u.name
    if namesakes.length = 1 then u.name
    else if ¬ (containsUser namesakes u = true) then u.name
    else u.name ++ " <" ++ u.uid ++ ">"

/-- `Room::Private::roomNameFromMemberNames`: partial top-2 selection, then
2 members → first selected name; 3 members → `"A and B"`; more than 3 →
`"A and N others"` with N = size − 3; otherwise the empty string. -/
def roomNameFromMemberNames (myId : String) (users : Registry) (userlist : List User) : String :=
  match userlist with
  | a :: b :: rest =>
    let p := firstTwo (memberCmp myId) a b rest
    if (a :: b :: rest).length = 2 then roomMembername users p.1
    else if (a :: b :: rest).length = 3 then
      roomMembername users p.1 ++ " and " ++ roomMembername users p.2
    else
      roomMembername users p.1 ++ " and " ++ toString ((a :: b :: rest).length - 3) ++ " others"
  | _ => ""

/-- The value computed by `Room::Private::updateDisplayname` (the do-while
with breaks): 1. name (with canonical alias stacked in angle brackets),
2. canonical alias, 3. current members, 4. left users, 5. the
`"Empty room (id)"` fallback. -/
def computeDisplayname (st : RoomState) : String :=
  if st.name ≠ "" then
    if st.canonicalAlias ≠ "" then st.name ++ " <" ++ st.canonicalAlias ++ ">"
    else st.name
  else if st.canonicalAlias ≠ "" then st.canonicalAlias
  else
    let fromMembers := roomNameFromMemberNames st.myId st.users (st.users.map (fun e => e.2))
    if fromMembers ≠ "" then fromMembers
    else
      let fromLeft := roomNameFromMemberNames st.myId st.users st.usersLeft
      if fromLeft ≠ "" then fromLeft
      else "Empty room (" ++ st.id ++ ")"

/-- `Room::Private::updateDisplayname`: store the recomputed value and emit
`namesChanged` exactly when it differs from the previous one. -/
def updateDisplayname (st : RoomState) : RoomState × List Emit :=
  let dn := computeDisplayname st
  ({ st with displayname := dn }, if st.displayname ≠ dn then [Emit.namesChanged] else [])

/-- The display name currently carried by the `User` object for `uid` in
the connection registry; a never-named object carries the empty string. -/
def lookupName (t : List (String × String)) (uid : String) : String :=
  match t.find? (fun e => e.1 == uid) with
  | some e => e.2
  | none => ""

/-- Store a new display name for the `User` object for `uid`. -/
def setName (t : List (String × String)) (uid n : String) : List (String × String) :=
  (uid, n) :: t.filter (fun e => !(e.1 == uid))

/-- `Room::Private::renameUser`: move the registry binding to the user's
new name, but only if the user is still present under the old name
(duplicate notifications for an unchanged name are thereby ignored), then
recompute the displayname. -/
def renameUser (st : RoomState) (user : User) (oldName : String) : RoomState × List Emit :=
  if containsUser (valuesOf st.users oldName) user = true then
    updateDisplayname
      { st with users := (user.name, user) :: removeUser st.users oldName user }
  else (st, [])

/-- Modelled from the spec: `Connection::user(userId)` (resolve/create the
one `User` object per id) and `User::processEvent` (replace the object's
display name with the event payload, announcing `nameChanged(user,
oldName)` when it differs) are not under src/.  The notification is routed
into `Room::userRenamed` → `renameUser` exactly when this room holds a
rename subscription for the user; Qt delivers it synchronously, before the
caller continues. -/
def resolveMemberUser (st : RoomState) (userId dn : String) : RoomState × List Emit :=
  let oldName := lookupName st.userNames userId
  let st0 := { st with userNames := setName st.userNames userId dn }
  if userId ∈ st0.renameConnections ∧ oldName ≠ dn then
    renameUser st0 { uid := userId, name := dn } oldName
  else (st0, [])

/-- `Room::processStateEvent`.  The `RoomMember` case resolves the user and
delivers the event payload to it first (`resolveMemberUser`, which may
already move the registry binding through the rename path), then branches
on the membership value with the user's now-current name. -/
def processStateEvent (st : RoomState) (ev : Event) : RoomState × List Emit :=
  match ev.payload with
  | EventPayload.roomName n =>
    updateDisplayname { st with name := n }
  | EventPayload.roomAliases as =>
    updateDisplayname { st with aliases := as }
  | EventPayload.roomCanonicalAlias a =>
    updateDisplayname { st with canonicalAlias := a }
  | EventPayload.roomTopic t =>
    ({ st with topic := t }, [Emit.topicChanged])
  | EventPayload.roomMember userId dn mem =>
    let u : User := { uid := userId, name := dn }
    let rn := resolveMemberUser st userId dn
    let st1 := rn.1
    if mem = MembershipType.join ∧ ¬ (containsUser (valuesOf st1.users u.name) u = true) then
      let st2 := { st1 with
        users := (u.name, u) :: st1.users
        renameConnections := userId :: st1.renameConnections }
      let r := updateDisplayname st2
      (r.1, rn.2 ++ [Emit.connectRename u.uid, Emit.userAdded u.uid] ++ r.2)
    else if mem = MembershipType.leave then
      let st2 :=
        if containsUser (valuesOf st1.users u.name) u = true then
          { st1 with users := removeUser st1.users u.name u }
        else st1
      let st3 :=
        if ¬ (containsUser st2.usersLeft u = true) then
          { st2 with usersLeft := st2.usersLeft ++ [u] }
        else st2
      let st4 := { st3 with
        renameConnections := st3.renameConnections.filter (fun x => !(x == userId)) }
      let r := updateDisplayname st4
      (r.1, rn.2 ++ [Emit.disconnectRename u.uid, Emit.userRemoved u.uid] ++ r.2)
    else (st1, rn.2)
  | EventPayload.message => (st, [])

/-- Processing a list of state events in order, as the state loop of
`Room::updateData` does, keeping the state. -/
def applyStateEvents (st : RoomState) (evs : List Event) : RoomState :=
  evs.foldl (fun s e => (processStateEvent s e).1) st

/-- Modelled from the spec: `Event::findEarliestAfterMe` is not under src/;
spec 4.2 places the event before the first element whose key is not before
the event's key. -/
def insertEvent (ev : Event) : List Event → List Event
  | [] => [ev]
  | x :: xs => if x.key < ev.key then x :: insertEvent ev xs else ev :: x :: xs

/-- `Room::processMessageEvent`: ordered insertion into the timeline. -/
def processMessageEvent (st : RoomState) (ev : Event) : RoomState :=
  { st with messageEvents := insertEvent ev st.messageEvents }

/-- `Room::getPreviousContent`: single-flight guard; when idle, raise the
flag and issue a fetch keyed by the current pagination token (returned as
`some token`; `none` = no job issued). -/
def getPreviousContent (st : RoomState) : RoomState × Option String :=
  if st.gettingNewContent = true then (st, none)
  else ({ st with gettingNewContent := true }, some st.prevBatch)

/-- `Room::gotMessages`: on error only the flag is cleared; on success every
returned event is inserted and announced, then `prevBatch` is overwritten
with the job's `end()` token and the flag is cleared. -/
def gotMessages (st : RoomState) (res : Except String (List Event × String)) :
    RoomState × List Emit :=
  match res with
  | Except.error _ => ({ st with gettingNewContent := false }, [])
  | Except.ok (events, endTok) =>
    let p := events.foldl
      (fun acc ev => (processMessageEvent acc.1 ev, acc.2 ++ [Emit.newMessage ev]))
      (st, ([] : List Emit))
    ({ p.1 with prevBatch := endTok, gettingNewContent := false }, p.2)

/-- The success path of the backward fetch exactly as the claim words it
(spec 4.7 with 4.1 step 4): each returned event is inserted, announced,
and also run through the state-event handler, then `prevBatch` is
overwritten and the flag cleared.  Stated from the spec's words, for
comparison with `gotMessages`. -/
def claimGotMessagesOk (st : RoomState) (events : List Event) (endTok : String) :
    RoomState × List Emit :=
  let p := events.foldl
    (fun acc ev =>
      let st1 := processMessageEvent acc.1 ev
      let r := processStateEvent st1 ev
      (r.1, acc.2 ++ [Emit.newMessage ev] ++ r.2))
    (st, ([] : List Emit))
  ({ p.1 with prevBatch := endTok, gettingNewContent := false }, p.2)

/-- The joining rule exactly as the claim words it: one member → that
member's disambiguated name; two members → `"A and B"`; more than two →
`"A and N others"` where N is the total member count minus 3; A and B are
the members selected by the source's top-2 selection.  Stated from the
claim, for comparison with `roomNameFromMemberNames`. -/
def claimMemberJoin (myId : String) (users : Registry) (userlist : List User) : String :=
  match userlist with
  | [] => ""
  | [u] => roomMembername users u
  | a :: b :: rest =>
    let p := firstTwo (memberCmp myId) a b rest
    if (a :: b :: rest).length = 2 then
      roomMembername users p.1 ++ " and " ++ roomMembername users p.2
    else
      roomMembername users p.1 ++ " and " ++ toString ((a :: b :: rest).length - 3) ++ " others"

/-- First non-empty string of a list, with a default. -/
def firstNonEmpty : List String → String → String
  | [], dflt => dflt
  | s :: rest, dflt => if s ≠ "" then s else firstNonEmpty rest dflt

/-- The displayname precedence exactly as the claim words it (spec 4.5):
first non-empty among (1) name with the canonical alias stacked in angle
brackets when non-empty, (2) the canonical alias, (3) the member label,
(4) the member label over left users, with fallback `"Empty room (id)"`.
Stated from the spec's words, for comparison with `computeDisplayname`. -/
def specDisplayname (st : RoomState) : String :=
  firstNonEmpty
    [ if st.name ≠ "" then
        (if st.canonicalAlias ≠ "" then st.name ++ " <" ++ st.canonicalAlias ++ ">" else st.name)
      else ""
    , st.canonicalAlias
    , roomNameFromMemberNames st.myId st.users (st.users.map (fun e => e.2))
    , roomNameFromMemberNames st.myId st.users st.usersLeft ]
    ("Empty room (" ++ st.id ++ ")")

/-- No Join event occurs anywhere after a Leave event in the sequence. -/
def noJoinAfterLeave : List MembershipType → Bool
  | [] => true
  | m :: rest =>
    (if m = MembershipType.leave then rest.all (fun x => decide (x ≠ MembershipType.join))
     else true) && noJoinAfterLeave rest

/-- Does the user list hold the user with this id (pointer containment)? -/
def listContainsId (l : List User) (uid : String) : Bool :=
  l.any (fun v => v.uid == uid)

/-- Concrete member `@a:s`, display name `Alice`. -/
def uAlice : User := ⟨"@a:s", "Alice"⟩

/-- Concrete member `@b:s`, display name `Bob`. -/
def uBob : User := ⟨"@b:s", "Bob"⟩

/-- A registry holding Alice and Bob, each under their display name. -/
def regAB : Registry := [("Alice", uAlice), ("Bob", uBob)]

/-- Membership events for the fixed user `@u:s` named `U`. -/
def memEvent (m : MembershipType) : Event :=
  ⟨0, EventPayload.roomMember "@u:s" "U" m⟩

/-- Join, then Leave, then Join again, all for `@u:s`. -/
def rejoinSeq : List Event :=
  [memEvent MembershipType.join, memEvent MembershipType.leave, memEvent MembershipType.join]

/-- A room whose local user is `@a:s` and whose members are `@a:s` and
`@b:s` (the registry stores Bob's entry first, as after Alice joined last). -/
def roomMeA : RoomState :=
  { initRoom "@a:s" "!r:s" with users := [("B", ⟨"@b:s", "B"⟩), ("A", ⟨"@a:s", "A"⟩)] }

/-- The same room state except that the local user is the outsider `@c:s`. -/
def roomMeC : RoomState :=
  { initRoom "@c:s" "!r:s" with users := [("B", ⟨"@b:s", "B"⟩), ("A", ⟨"@a:s", "A"⟩)] }

-- ## Helper lemmas

/-- The success loop of `gotMessages` only inserts into the timeline and
collects `newMessage` emissions. -/
lemma gotMessages_loop (events : List Event) (st : RoomState) (acc : List Emit) :
    events.foldl
      (fun acc ev => (processMessageEvent acc.1 ev, acc.2 ++ [Emit.newMessage ev]))
      (st, acc)
    = ({ st with messageEvents := events.foldl (fun tl e => insertEvent e tl) st.messageEvents },
       acc ++ events.map Emit.newMessage) := by
  induction events generalizing st acc with
  | nil => simp
  | cons e es ih =>
    simp only [List.foldl_cons, List.map_cons]
    rw [ih]
    simp [processMessageEvent]

-- ## Claim theorems

/-- C2 (counterexample): on a successful backward fetch returning a
`RoomName` state event, `gotMessages` does not run the event through the
state-event handler: the room name stays empty, while the claim's path
(`claimGotMessagesOk`, insert + notify + state-dispatch) would set it to
`"X"`; the two results differ. -/
theorem C2_counterexample :
    (gotMessages (initRoom "@me:s" "!r:s")
        (Except.ok ([⟨1, EventPayload.roomName "X"⟩], "t"))).1.name = "" ∧
    (claimGotMessagesOk (initRoom "@me:s" "!r:s")
        [⟨1, EventPayload.roomName "X"⟩] "t").1.name = "X" ∧
    gotMessages (initRoom "@me:s" "!r:s")
        (Except.ok ([⟨1, EventPayload.roomName "X"⟩], "t"))
      ≠ claimGotMessagesOk (initRoom "@me:s" "!r:s") [⟨1, EventPayload.roomName "X"⟩] "t" := by
  decide

/-- C2 (amended): on successful completion every returned event is, in the
order received, inserted into the timeline and announced via `newMessage`
— but not run through the state-event handler (name, canonical alias,
membership, left list, topic and displayname are untouched) — and
afterwards `prevBatch` holds the job's returned token and the in-flight
flag is cleared. -/
theorem C2_amended (st : RoomState) (events : List Event) (endTok : String) :
    (gotMessages st (Except.ok (events, endTok))).1.messageEvents
      = events.foldl (fun tl e => insertEvent e tl) st.messageEvents ∧
    (gotMessages st (Except.ok (events, endTok))).2 = events.map Emit.newMessage ∧
    (gotMessages st (Except.ok (events, endTok))).1.prevBatch = endTok ∧
    (gotMessages st (Except.ok (events, endTok))).1.gettingNewContent = false ∧
    (gotMessages st (Except.ok (events, endTok))).1.name = st.name ∧
    (gotMessages st (Except.ok (events, endTok))).1.canonicalAlias = st.canonicalAlias ∧
    (gotMessages st (Except.ok (events, endTok))).1.users = st.users ∧
    (gotMessages st (Except.ok (events, endTok))).1.usersLeft = st.usersLeft ∧
    (gotMessages st (Except.ok (events, endTok))).1.topic = st.topic ∧
    (gotMessages st (Except.ok (events, endTok))).1.displayname = st.displayname := by
  simp [gotMessages, gotMessages_loop]

/-- C5: when the backward fetch completes with an error the in-flight flag
is false afterwards, `prevBatch` and the timeline are unchanged and nothing
is emitted; and the flag is cleared on every completion path, success or
failure. -/
theorem C5_error_path :
    (∀ (st : RoomState) (e : String),
      (gotMessages st (Except.error e)).1.gettingNewContent = false ∧
      (gotMessages st (Except.error e)).1.prevBatch = st.prevBatch ∧
      (gotMessages st (Except.error e)).1.messageEvents = st.messageEvents ∧
      (gotMessages st (Except.error e)).2 = []) ∧
    (∀ (st : RoomState) (res : Except String (List Event × String)),
      (gotMessages st res).1.gettingNewContent = false) := by
  refine ⟨fun st e => ⟨rfl, rfl, rfl, rfl⟩, fun st res => ?_⟩
  match res with
  | Except.error e => rfl
  | Except.ok (events, endTok) => simp [gotMessages, gotMessages_loop]

/-- C6: calling `getPreviousContent` while a backward fetch is in flight
has no observable effect: the state is returned unchanged and no fetch job
is issued. -/
theorem C6_single_flight (st : RoomState) (h : st.gettingNewContent = true) :
    getPreviousContent st = (st, none) := by
  simp [getPreviousContent, h]

/-- Witness for C6 at a concrete in-flight room. -/
theorem C6_witness :
    getPreviousContent { initRoom "@me:s" "!r:s" with gettingNewContent := true }
      = ({ initRoom "@me:s" "!r:s" with gettingNewContent := true }, none) :=
  C6_single_flight { initRoom "@me:s" "!r:s" with gettingNewContent := true } rfl

/-- Appending to a non-empty string keeps it non-empty. -/
lemma append_ne_empty (s t : String) (h : s ≠ "") : s ++ t ≠ "" := by
  intro he
  apply h
  have hd : (s ++ t).data = ("" : String).data := by rw [he]
  rw [String.data_append] at hd
  rcases List.append_eq_nil.mp hd with ⟨h1, _⟩
  exact String.ext h1

/-- The rule-5 fallback differs from the constructor placeholder for every
room id: the 12th character is a parenthesis in one and an angle bracket in
the other. -/
lemma fallback_ne_placeholder (id : String) :
    ("Empty room (" ++ id ++ ")" : String) ≠ "Empty room <" ++ id ++ ">" := by
  intro h
  have hd := congrArg String.data h
  simp only [String.data_append] at hd
  rw [List.append_assoc, List.append_assoc] at hd
  have hlen : ("Empty room (" : String).data.length = ("Empty room <" : String).data.length := by
    decide
  have := (List.append_inj hd hlen).1
  exact absurd (String.ext this) (by decide)

/-- C4: the recomputed displayname follows exactly the claimed precedence
(`specDisplayname`, stated from the spec's words): name with canonical
alias stacked, else canonical alias, else the member label, else the label
over left users, else the `"Empty room (id)"` fallback; and a `RoomName`
event setting the name to `"Team"` while the canonical alias is
`"#team:s"` yields `"Team <#team:s>"`. -/
theorem C4_precedence :
    (∀ st : RoomState, computeDisplayname st = specDisplayname st) ∧
    (processStateEvent { initRoom "@me:s" "!r:s" with canonicalAlias := "#team:s" }
        ⟨0, EventPayload.roomName "Team"⟩).1.displayname = "Team <#team:s>" := by
  constructor
  · intro st
    by_cases h1 : st.name = ""
    · by_cases h2 : st.canonicalAlias = "" <;>
        simp [computeDisplayname, specDisplayname, firstNonEmpty, h1, h2]
    · by_cases h2 : st.canonicalAlias = ""
      · simp [computeDisplayname, specDisplayname, firstNonEmpty, h1, h2]
      · have h3 : st.name ++ " <" ++ st.canonicalAlias ++ ">" ≠ "" :=
          append_ne_empty _ _ (append_ne_empty _ _ (append_ne_empty _ _ h1))
        simp [computeDisplayname, specDisplayname, firstNonEmpty, h1, h2, h3]
  · decide

/-- C9: the constructor sets the displayname to `"Empty room <id>"` (angle
brackets) while the rule-5 fallback is `"Empty room (id)"` (parentheses);
for any room still holding the constructor placeholder with empty name,
canonical alias, member set and left list, the first recomputation yields
the differing fallback, stores it, and emits `namesChanged`. -/
theorem C9_placeholder_mismatch :
    (∀ myId id : String, (initRoom myId id).displayname = "Empty room <" ++ id ++ ">") ∧
    (∀ st : RoomState,
      st.name = "" → st.canonicalAlias = "" → st.users = [] → st.usersLeft = [] →
      st.displayname = "Empty room <" ++ st.id ++ ">" →
      computeDisplayname st = "Empty room (" ++ st.id ++ ")" ∧
      (updateDisplayname st).1.displayname ≠ st.displayname ∧
      (updateDisplayname st).2 = [Emit.namesChanged]) := by
  constructor
  · intro myId id
    rfl
  · intro st h1 h2 h3 h4 h5
    have hc : computeDisplayname st = "Empty room (" ++ st.id ++ ")" := by
      simp [computeDisplayname, roomNameFromMemberNames, h1, h2, h3, h4]
    have hne : computeDisplayname st ≠ st.displayname := by
      rw [hc, h5]
      exact fallback_ne_placeholder st.id
    refine ⟨hc, ?_, ?_⟩
    · simpa [updateDisplayname] using hne
    · simp [updateDisplayname, Ne.symm hne]

/-- Witness for C9 at a freshly constructed concrete room. -/
theorem C9_witness :
    computeDisplayname (initRoom "@me:s" "!r:s") = "Empty room (!r:s)" ∧
    (updateDisplayname (initRoom "@me:s" "!r:s")).1.displayname
      ≠ (initRoom "@me:s" "!r:s").displayname ∧
    (updateDisplayname (initRoom "@me:s" "!r:s")).2 = [Emit.namesChanged] :=
  C9_placeholder_mismatch.2 (initRoom "@me:s" "!r:s") rfl rfl rfl rfl rfl

/-- C7 (counterexample): the recomputed displayname is not a function of
{name, canonicalAlias, member set, left-user set, id} alone — it also
consults the connection's local user through the member-selection
comparator.  `roomMeA` and `roomMeC` agree on all five listed inputs and
differ only in the local user, yet recompute to `"B"` and `"A"`. -/
theorem C7_counterexample :
    roomMeA.name = roomMeC.name ∧
    roomMeA.canonicalAlias = roomMeC.canonicalAlias ∧
    roomMeA.users = roomMeC.users ∧
    roomMeA.usersLeft = roomMeC.usersLeft ∧
    roomMeA.id = roomMeC.id ∧
    computeDisplayname roomMeA = "B" ∧
    computeDisplayname roomMeC = "A" ∧
    computeDisplayname roomMeA ≠ computeDisplayname roomMeC := by
  decide

/-- C7 (amended): displayname recomputation is deterministic in
{name, canonicalAlias, member set, left-user set, id} together with the
connection's local user; and when the recomputed value equals the stored
displayname, no `namesChanged` notification is emitted. -/
theorem C7_deterministic :
    (∀ st1 st2 : RoomState,
      st1.name = st2.name → st1.canonicalAlias = st2.canonicalAlias →
      st1.users = st2.users → st1.usersLeft = st2.usersLeft →
      st1.id = st2.id → st1.myId = st2.myId →
      computeDisplayname st1 = computeDisplayname st2) ∧
    (∀ st : RoomState, computeDisplayname st = st.displayname →
      (updateDisplayname st).2 = []) := by
  constructor
  · intro st1 st2 h1 h2 h3 h4 h5 h6
    simp only [computeDisplayname]
    rw [h1, h2, h3, h4, h5, h6]
  · intro st h
    simp [updateDisplayname, h]

/-- Witness for C7: determinism applied to two concrete states agreeing on
all six inputs, and silence of the recomputation on a concrete room whose
stored displayname already equals the recomputed value. -/
theorem C7_witness :
    computeDisplayname (initRoom "@me:s" "!r:s")
      = computeDisplayname { initRoom "@me:s" "!r:s" with topic := "t" } ∧
    (updateDisplayname { initRoom "@me:s" "!r:s" with
        displayname := "Empty room (!r:s)" }).2 = [] :=
  ⟨C7_deterministic.1 (initRoom "@me:s" "!r:s")
      { initRoom "@me:s" "!r:s" with topic := "t" } rfl rfl rfl rfl rfl rfl,
   C7_deterministic.2 { initRoom "@me:s" "!r:s" with
        displayname := "Empty room (!r:s)" } (by decide)⟩

/-- C3 (counterexample): for a two-member list the source returns the one
top selected disambiguated name, not the claimed `"A and B"`: with members
Alice and Bob (local user an outsider) the label is `"Alice"`, while the
claim's joining rule (`claimMemberJoin`) yields `"Alice and Bob"`. -/
theorem C3_counterexample :
    roomNameFromMemberNames "@me:s" regAB [uAlice, uBob] = "Alice" ∧
    claimMemberJoin "@me:s" regAB [uAlice, uBob] = "Alice and Bob" ∧
    roomNameFromMemberNames "@me:s" regAB [uAlice, uBob]
      ≠ claimMemberJoin "@me:s" regAB [uAlice, uBob] := by
  refine ⟨rfl, rfl, ?_⟩
  intro h
  exact absurd (rfl.trans (h.trans rfl)) (by decide)

/-- C3 (amended): the member counts in the joining rule are offset by one
from the claim — with the top-2 selection `p`: a two-member list yields the
first selected member's disambiguated name alone, a three-member list
yields `"A and B"`, a list of more than three members yields
`"A and N others"` with N = total member count − 3, and lists of fewer
than two members yield the empty string. -/
theorem C3_amended (myId : String) (users : Registry) (a b : User) (rest : List User) :
    ((a :: b :: rest).length = 2 →
      roomNameFromMemberNames myId users (a :: b :: rest)
        = roomMembername users (firstTwo (memberCmp myId) a b rest).1) ∧
    ((a :: b :: rest).length = 3 →
      roomNameFromMemberNames myId users (a :: b :: rest)
        = roomMembername users (firstTwo (memberCmp myId) a b rest).1 ++ " and "
          ++ roomMembername users (firstTwo (memberCmp myId) a b rest).2) ∧
    (3 < (a :: b :: rest).length →
      roomNameFromMemberNames myId users (a :: b :: rest)
        = roomMembername users (firstTwo (memberCmp myId) a b rest).1 ++ " and "
          ++ toString ((a :: b :: rest).length - 3) ++ " others") ∧
    (∀ u : User, roomNameFromMemberNames myId users [u] = "") ∧
    roomNameFromMemberNames myId users [] = "" := by
  refine ⟨?_, ?_, ?_, fun u => rfl, rfl⟩
  · intro h
    simp [roomNameFromMemberNames, h]
  · intro h
    simp [roomNameFromMemberNames, h]
  · intro h
    have h0 : rest ≠ [] := by
      intro he
      subst he
      simp at h
    have h1 : rest.length ≠ 1 := by
      simp at h
      omega
    simp [roomNameFromMemberNames, h0, h1]

/-- Witness for C3 (amended) on concrete two- and three-member lists. -/
theorem C3_witness :
    roomNameFromMemberNames "@me:s" regAB [uAlice, uBob]
      = roomMembername regAB (firstTwo (memberCmp "@me:s") uAlice uBob []).1 ∧
    roomNameFromMemberNames "@me:s" regAB [uAlice, uBob, ⟨"@c:s", "Carol"⟩]
      = roomMembername regAB (firstTwo (memberCmp "@me:s") uAlice uBob [⟨"@c:s", "Carol"⟩]).1
        ++ " and "
        ++ roomMembername regAB (firstTwo (memberCmp "@me:s") uAlice uBob [⟨"@c:s", "Carol"⟩]).2 :=
  ⟨(C3_amended "@me:s" regAB uAlice uBob []).1 rfl,
   (C3_amended "@me:s" regAB uAlice uBob [⟨"@c:s", "Carol"⟩]).2.1 rfl⟩

/-- `updateDisplayname` only rewrites the displayname field. -/
lemma updateDisplayname_fst_users (st : RoomState) :
    (updateDisplayname st).1.users = st.users := rfl

/-- `updateDisplayname` leaves the left-users list alone. -/
lemma updateDisplayname_fst_usersLeft (st : RoomState) :
    (updateDisplayname st).1.usersLeft = st.usersLeft := rfl


/-- After `remove(key, u)` the values under `key` no longer contain `u`. -/
lemma containsUser_valuesOf_removeUser (r : Registry) (k : String) (u : User) :
    containsUser (valuesOf (removeUser r k u) k) u = false := by
  induction r with
  | nil => rfl
  | cons e r ih =>
    by_cases h1 : e.1 = k <;> by_cases h2 : e.2.uid = u.uid <;>
      simp [removeUser, valuesOf, containsUser, List.filter_cons, h1, h2] at * <;>
      simpa [removeUser, valuesOf, containsUser] using ih

/-- A user present nowhere in the registry is absent from the values under
any key. -/
lemma containsUser_valuesOf_of_not_registryContains (r : Registry) (uid n k : String)
    (h : registryContains r uid = false) :
    containsUser (valuesOf r k) ⟨uid, n⟩ = false := by
  induction r with
  | nil => rfl
  | cons e r ih =>
    simp [registryContains] at h
    have hr : registryContains r uid = false := by
      simp [registryContains]
      exact h.2
    by_cases h1 : e.1 = k <;>
      simp [valuesOf, containsUser, List.filter_cons, h1, h.1] <;>
      simpa [valuesOf, containsUser] using ih hr

/-- Appending a user makes the list contain it. -/
lemma containsUser_append_self (l : List User) (u : User) :
    containsUser (l ++ [u]) u = true := by
  simp [containsUser]

/-- Looking up a user right after storing its name yields that name. -/
lemma lookupName_setName (t : List (String × String)) (uid n : String) :
    lookupName (setName t uid n) uid = n := by
  simp [lookupName, setName]

/-- Member resolution never touches the left-users list. -/
lemma resolve_usersLeft (st : RoomState) (uid dn : String) :
    (resolveMemberUser st uid dn).1.usersLeft = st.usersLeft := by
  simp only [resolveMemberUser, renameUser]
  split
  · split
    · simp [updateDisplayname]
    · rfl
  · rfl

/-- Member resolution stores the event's display name for the user. -/
lemma resolve_userNames (st : RoomState) (uid dn : String) :
    (resolveMemberUser st uid dn).1.userNames = setName st.userNames uid dn := by
  simp only [resolveMemberUser, renameUser]
  split
  · split
    · simp [updateDisplayname]
    · rfl
  · rfl

/-- Member resolution never touches the rename subscriptions. -/
lemma resolve_conns (st : RoomState) (uid dn : String) :
    (resolveMemberUser st uid dn).1.renameConnections = st.renameConnections := by
  simp only [resolveMemberUser, renameUser]
  split
  · split
    · simp [updateDisplayname]
    · rfl
  · rfl

/-- When the user's tracked display name already equals the event's, no
rename fires: resolution only (re)stores the name. -/
lemma resolve_of_lookup_self (st : RoomState) (uid dn : String)
    (h : lookupName st.userNames uid = dn) :
    resolveMemberUser st uid dn
      = ({ st with userNames := setName st.userNames uid dn }, []) := by
  simp [resolveMemberUser, h]

/-- For a user absent from the registry the rename path is a no-op, whatever
the old name was: resolution only stores the name. -/
lemma resolve_of_absent (st : RoomState) (uid dn : String)
    (h : registryContains st.users uid = false) :
    resolveMemberUser st uid dn
      = ({ st with userNames := setName st.userNames uid dn }, []) := by
  have hc : containsUser (valuesOf st.users (lookupName st.userNames uid)) ⟨uid, dn⟩ = false :=
    containsUser_valuesOf_of_not_registryContains st.users uid dn _ h
  simp only [resolveMemberUser, renameUser]
  split
  · simp [hc]
  · rfl

/-- The Join branch of the `RoomMember` case, after resolution: nothing
more happens when the user is already present under its current name,
otherwise the user is inserted, subscribed, and the displayname
recomputed. -/
lemma processStateEvent_join (st : RoomState) (uid dn : String) (k : Nat) :
    (processStateEvent st ⟨k, EventPayload.roomMember uid dn MembershipType.join⟩).1
      = (if containsUser (valuesOf (resolveMemberUser st uid dn).1.users dn) ⟨uid, dn⟩ = true
         then (resolveMemberUser st uid dn).1
         else
           (updateDisplayname { (resolveMemberUser st uid dn).1 with
             users := (dn, ⟨uid, dn⟩) :: (resolveMemberUser st uid dn).1.users
             renameConnections := uid :: (resolveMemberUser st uid dn).1.renameConnections }).1) := by
  by_cases h :
      containsUser (valuesOf (resolveMemberUser st uid dn).1.users dn) ⟨uid, dn⟩ = true <;>
    simp [processStateEvent, h]

/-- The Leave branch of the `RoomMember` case, after resolution: remove
from the registry if present under the current name, append to the left
list if absent, unsubscribe, then recompute the displayname. -/
lemma processStateEvent_leave (st : RoomState) (uid dn : String) (k : Nat) :
    processStateEvent st ⟨k, EventPayload.roomMember uid dn MembershipType.leave⟩
      = (let st1 := (resolveMemberUser st uid dn).1
         let st2 :=
           if containsUser (valuesOf st1.users dn) ⟨uid, dn⟩ = true then
             { st1 with users := removeUser st1.users dn ⟨uid, dn⟩ }
           else st1
         let st3 :=
           if ¬ (containsUser st2.usersLeft ⟨uid, dn⟩ = true) then
             { st2 with usersLeft := st2.usersLeft ++ [⟨uid, dn⟩] }
           else st2
         let st4 := { st3 with
           renameConnections := st3.renameConnections.filter (fun x => !(x == uid)) }
         let r := updateDisplayname st4
         (r.1, (resolveMemberUser st uid dn).2
                 ++ [Emit.disconnectRename uid, Emit.userRemoved uid] ++ r.2)) := by
  simp [processStateEvent]

/-- For every other membership value only the resolution step happens. -/
lemma processStateEvent_invite (st : RoomState) (uid dn : String) (k : Nat) :
    processStateEvent st ⟨k, EventPayload.roomMember uid dn MembershipType.invite⟩
      = resolveMemberUser st uid dn := by
  simp [processStateEvent]

/-- Registry contents after a Join event, relative to the resolved state. -/
lemma join_users (st : RoomState) (uid dn : String) (k : Nat) :
    ((processStateEvent st ⟨k, EventPayload.roomMember uid dn MembershipType.join⟩).1).users
      = if containsUser (valuesOf (resolveMemberUser st uid dn).1.users dn) ⟨uid, dn⟩ = true
        then (resolveMemberUser st uid dn).1.users
        else (dn, ⟨uid, dn⟩) :: (resolveMemberUser st uid dn).1.users := by
  by_cases g :
      containsUser (valuesOf (resolveMemberUser st uid dn).1.users dn) ⟨uid, dn⟩ = true <;>
    simp [processStateEvent_join, updateDisplayname, g]

/-- A Join event leaves the left-users list where resolution left it. -/
lemma join_usersLeft (st : RoomState) (uid dn : String) (k : Nat) :
    ((processStateEvent st ⟨k, EventPayload.roomMember uid dn MembershipType.join⟩).1).usersLeft
      = st.usersLeft := by
  by_cases g :
      containsUser (valuesOf (resolveMemberUser st uid dn).1.users dn) ⟨uid, dn⟩ = true <;>
    simp [processStateEvent_join, updateDisplayname, g, resolve_usersLeft]

/-- Rename subscriptions after a Join event. -/
lemma join_conns (st : RoomState) (uid dn : String) (k : Nat) :
    ((processStateEvent st
        ⟨k, EventPayload.roomMember uid dn MembershipType.join⟩).1).renameConnections
      = if containsUser (valuesOf (resolveMemberUser st uid dn).1.users dn) ⟨uid, dn⟩ = true
        then st.renameConnections
        else uid :: st.renameConnections := by
  by_cases g :
      containsUser (valuesOf (resolveMemberUser st uid dn).1.users dn) ⟨uid, dn⟩ = true <;>
    simp [processStateEvent_join, updateDisplayname, g, resolve_conns]

/-- Tracked user names after a Join event. -/
lemma join_userNames (st : RoomState) (uid dn : String) (k : Nat) :
    ((processStateEvent st
        ⟨k, EventPayload.roomMember uid dn MembershipType.join⟩).1).userNames
      = setName st.userNames uid dn := by
  by_cases g :
      containsUser (valuesOf (resolveMemberUser st uid dn).1.users dn) ⟨uid, dn⟩ = true <;>
    simp [processStateEvent_join, updateDisplayname, g, resolve_userNames]

/-- Registry contents after a Leave event, relative to the resolved state. -/
lemma leave_users (st : RoomState) (uid dn : String) (k : Nat) :
    ((processStateEvent st ⟨k, EventPayload.roomMember uid dn MembershipType.leave⟩).1).users
      = if containsUser (valuesOf (resolveMemberUser st uid dn).1.users dn) ⟨uid, dn⟩ = true
        then removeUser (resolveMemberUser st uid dn).1.users dn ⟨uid, dn⟩
        else (resolveMemberUser st uid dn).1.users := by
  by_cases g :
      containsUser (valuesOf (resolveMemberUser st uid dn).1.users dn) ⟨uid, dn⟩ = true <;>
  by_cases l : containsUser st.usersLeft ⟨uid, dn⟩ = true <;>
    simp [processStateEvent_leave, updateDisplayname, g, l, resolve_usersLeft]

/-- Left-users list after a Leave event. -/
lemma leave_usersLeft (st : RoomState) (uid dn : String) (k : Nat) :
    ((processStateEvent st ⟨k, EventPayload.roomMember uid dn MembershipType.leave⟩).1).usersLeft
      = if containsUser st.usersLeft ⟨uid, dn⟩ = true then st.usersLeft
        else st.usersLeft ++ [⟨uid, dn⟩] := by
  by_cases g :
      containsUser (valuesOf (resolveMemberUser st uid dn).1.users dn) ⟨uid, dn⟩ = true <;>
  by_cases l : containsUser st.usersLeft ⟨uid, dn⟩ = true <;>
    simp [processStateEvent_leave, updateDisplayname, g, l, resolve_usersLeft]

/-- Rename subscriptions after a Leave event. -/
lemma leave_conns (st : RoomState) (uid dn : String) (k : Nat) :
    ((processStateEvent st
        ⟨k, EventPayload.roomMember uid dn MembershipType.leave⟩).1).renameConnections
      = st.renameConnections.filter (fun x => !(x == uid)) := by
  by_cases g :
      containsUser (valuesOf (resolveMemberUser st uid dn).1.users dn) ⟨uid, dn⟩ = true <;>
  by_cases l : containsUser st.usersLeft ⟨uid, dn⟩ = true <;>
    simp [processStateEvent_leave, updateDisplayname, g, l, resolve_usersLeft, resolve_conns]

/-- Tracked user names after a Leave event. -/
lemma leave_userNames (st : RoomState) (uid dn : String) (k : Nat) :
    ((processStateEvent st
        ⟨k, EventPayload.roomMember uid dn MembershipType.leave⟩).1).userNames
      = setName st.userNames uid dn := by
  by_cases g :
      containsUser (valuesOf (resolveMemberUser st uid dn).1.users dn) ⟨uid, dn⟩ = true <;>
  by_cases l : containsUser st.usersLeft ⟨uid, dn⟩ = true <;>
    simp [processStateEvent_leave, updateDisplayname, g, l, resolve_usersLeft, resolve_userNames]

/-- After one Leave application the user is gone from the values under its
current name, present in the left list, and tracked under the event's
display name. -/
lemma leave_facts (s : RoomState) (uid dn : String) (k : Nat) :
    containsUser
        (valuesOf ((processStateEvent s
          ⟨k, EventPayload.roomMember uid dn MembershipType.leave⟩).1).users dn)
        ⟨uid, dn⟩ = false ∧
    containsUser
        ((processStateEvent s
          ⟨k, EventPayload.roomMember uid dn MembershipType.leave⟩).1).usersLeft
        ⟨uid, dn⟩ = true ∧
    lookupName
        ((processStateEvent s
          ⟨k, EventPayload.roomMember uid dn MembershipType.leave⟩).1).userNames uid = dn := by
  refine ⟨?_, ?_, ?_⟩
  · rw [leave_users]
    by_cases g :
        containsUser (valuesOf (resolveMemberUser s uid dn).1.users dn) ⟨uid, dn⟩ = true <;>
      simp [g, containsUser_valuesOf_removeUser]
  · rw [leave_usersLeft]
    by_cases l : containsUser s.usersLeft ⟨uid, dn⟩ = true <;>
      simp [l, containsUser_append_self]
  · rw [leave_userNames, lookupName_setName]

/-- C8: processing the same `RoomMember` Leave event a second time changes
neither the membership registry nor the left-users list: their contents
after the second application equal their contents after the first. -/
theorem C8_leave_idempotent (st : RoomState) (uid dn : String) (k : Nat) :
    ((processStateEvent
        (processStateEvent st ⟨k, EventPayload.roomMember uid dn MembershipType.leave⟩).1
        ⟨k, EventPayload.roomMember uid dn MembershipType.leave⟩).1).users
      = ((processStateEvent st ⟨k, EventPayload.roomMember uid dn MembershipType.leave⟩).1).users
    ∧ ((processStateEvent
        (processStateEvent st ⟨k, EventPayload.roomMember uid dn MembershipType.leave⟩).1
        ⟨k, EventPayload.roomMember uid dn MembershipType.leave⟩).1).usersLeft
      = ((processStateEvent st ⟨k, EventPayload.roomMember uid dn MembershipType.leave⟩).1).usersLeft := by
  obtain ⟨F1, F2, F3⟩ := leave_facts st uid dn k
  generalize hs1 :
    (processStateEvent st ⟨k, EventPayload.roomMember uid dn MembershipType.leave⟩).1 = s1
      at F1 F2 F3 ⊢
  have hres := resolve_of_lookup_self s1 uid dn F3
  constructor
  · rw [leave_users, hres]
    simp [F1]
  · rw [leave_usersLeft]
    simp [F2]

/-- The recomputed displayname does not read the stored displayname. -/
lemma computeDisplayname_set_displayname (st : RoomState) (x : String) :
    computeDisplayname { st with displayname := x } = computeDisplayname st := rfl

/-- C10: a `RoomMember` Leave for a user absent from the membership
registry is not a complete no-op: the registry is unchanged, the user is
still appended to the left-users list (when not already there), a
`userRemoved` notification is still emitted, and the stored displayname is
the recomputation for the resulting state. -/
theorem C10_leave_absent_user (st : RoomState) (uid dn : String) (k : Nat)
    (h : registryContains st.users uid = false) :
    ((processStateEvent st ⟨k, EventPayload.roomMember uid dn MembershipType.leave⟩).1).users
      = st.users ∧
    ((processStateEvent st ⟨k, EventPayload.roomMember uid dn MembershipType.leave⟩).1).usersLeft
      = (if containsUser st.usersLeft ⟨uid, dn⟩ = true then st.usersLeft
         else st.usersLeft ++ [⟨uid, dn⟩]) ∧
    Emit.userRemoved uid
      ∈ (processStateEvent st ⟨k, EventPayload.roomMember uid dn MembershipType.leave⟩).2 ∧
    ((processStateEvent st ⟨k, EventPayload.roomMember uid dn MembershipType.leave⟩).1).displayname
      = computeDisplayname
          ((processStateEvent st ⟨k, EventPayload.roomMember uid dn MembershipType.leave⟩).1) := by
  have hres := resolve_of_absent st uid dn h
  have g : containsUser (valuesOf st.users dn) ⟨uid, dn⟩ = false :=
    containsUser_valuesOf_of_not_registryContains st.users uid dn dn h
  by_cases l : containsUser st.usersLeft ⟨uid, dn⟩ = true <;>
    (simp [processStateEvent_leave, hres, updateDisplayname, g, l,
       computeDisplayname_set_displayname]
     try rfl)

/-- Witness for C10: a fresh room has no registry entry for `@u:s`, yet the
Leave event lands the user in the left list and emits `userRemoved`. -/
theorem C10_witness :
    ((processStateEvent (initRoom "@me:s" "!r:s") (memEvent MembershipType.leave)).1).users
      = (initRoom "@me:s" "!r:s").users ∧
    ((processStateEvent (initRoom "@me:s" "!r:s") (memEvent MembershipType.leave)).1).usersLeft
      = (if containsUser (initRoom "@me:s" "!r:s").usersLeft ⟨"@u:s", "U"⟩ = true then
           (initRoom "@me:s" "!r:s").usersLeft
         else (initRoom "@me:s" "!r:s").usersLeft ++ [⟨"@u:s", "U"⟩]) ∧
    Emit.userRemoved "@u:s"
      ∈ (processStateEvent (initRoom "@me:s" "!r:s") (memEvent MembershipType.leave)).2 ∧
    ((processStateEvent (initRoom "@me:s" "!r:s") (memEvent MembershipType.leave)).1).displayname
      = computeDisplayname
          ((processStateEvent (initRoom "@me:s" "!r:s") (memEvent MembershipType.leave)).1) :=
  C10_leave_absent_user (initRoom "@me:s" "!r:s") "@u:s" "U" 0 rfl

/-- Processing state events one by one peels off the head. -/
lemma applyStateEvents_cons (st : RoomState) (e : Event) (evs : List Event) :
    applyStateEvents st (e :: evs) = applyStateEvents (processStateEvent st e).1 evs := rfl

/-- Member resolution preserves the single-user registry shape: an empty
unsubscribed registry stays empty; a subscribed single entry under the
user's tracked name is carried to the event's display name (the rename
path moves the binding when the names differ). -/
lemma resolve_shape (st : RoomState) (uid dn : String)
    (hU : (st.users = [] ∧ uid ∉ st.renameConnections) ∨
      (st.users = [(lookupName st.userNames uid, ⟨uid, lookupName st.userNames uid⟩)]
        ∧ uid ∈ st.renameConnections)) :
    ((resolveMemberUser st uid dn).1.users = []
        ∧ uid ∉ (resolveMemberUser st uid dn).1.renameConnections) ∨
      ((resolveMemberUser st uid dn).1.users = [(dn, ⟨uid, dn⟩)]
        ∧ uid ∈ (resolveMemberUser st uid dn).1.renameConnections) := by
  rcases hU with ⟨hu, hc⟩ | ⟨hu, hc⟩
  · left
    refine ⟨?_, ?_⟩
    · simp [resolveMemberUser, renameUser, hu, hc, valuesOf, containsUser]
    · rw [resolve_conns]
      exact hc
  · right
    refine ⟨?_, ?_⟩
    · by_cases heq : lookupName st.userNames uid = dn
      · rw [heq] at hu
        rw [resolve_of_lookup_self st uid dn heq]
        exact hu
      · have hval :
            containsUser (valuesOf st.users (lookupName st.userNames uid)) ⟨uid, dn⟩ = true := by
          rw [hu]
          simp [valuesOf, containsUser]
        have hrm :
            removeUser st.users (lookupName st.userNames uid) ⟨uid, dn⟩ = [] := by
          rw [hu]
          simp [removeUser]
        simp [resolveMemberUser, renameUser, hc, heq, hval, hrm, updateDisplayname]
    · rw [resolve_conns]
      exact hc

/-- Starting from a registry holding at most the one tracked, subscribed
entry for the user and a left list holding the user at most once, every
sequence of membership events for that user — each with its own display
name — keeps both lists in that shape. -/
lemma c1_shape (uid : String) :
    ∀ (seq : List (MembershipType × String)) (st : RoomState),
      ((st.users = [] ∧ uid ∉ st.renameConnections) ∨
        (st.users = [(lookupName st.userNames uid, ⟨uid, lookupName st.userNames uid⟩)]
          ∧ uid ∈ st.renameConnections)) →
      (st.usersLeft = [] ∨ ∃ d, st.usersLeft = [⟨uid, d⟩]) →
      (((applyStateEvents st
            (seq.map (fun p => ⟨0, EventPayload.roomMember uid p.2 p.1⟩))).users = []
          ∧ uid ∉ (applyStateEvents st
              (seq.map (fun p => ⟨0, EventPayload.roomMember uid p.2 p.1⟩))).renameConnections) ∨
        ((applyStateEvents st
            (seq.map (fun p => ⟨0, EventPayload.roomMember uid p.2 p.1⟩))).users
          = [(lookupName (applyStateEvents st
                (seq.map (fun p => ⟨0, EventPayload.roomMember uid p.2 p.1⟩))).userNames uid,
              ⟨uid, lookupName (applyStateEvents st
                (seq.map (fun p => ⟨0, EventPayload.roomMember uid p.2 p.1⟩))).userNames uid⟩)]
          ∧ uid ∈ (applyStateEvents st
              (seq.map (fun p => ⟨0, EventPayload.roomMember uid p.2 p.1⟩))).renameConnections)) ∧
      ((applyStateEvents st
          (seq.map (fun p => ⟨0, EventPayload.roomMember uid p.2 p.1⟩))).usersLeft = []
        ∨ ∃ d, (applyStateEvents st
            (seq.map (fun p => ⟨0, EventPayload.roomMember uid p.2 p.1⟩))).usersLeft
          = [⟨uid, d⟩]) := by
  intro seq
  induction seq with
  | nil => exact fun st hU hL => ⟨hU, hL⟩
  | cons p rest ih =>
    intro st hU hL
    obtain ⟨m, dn⟩ := p
    simp only [List.map_cons, applyStateEvents_cons]
    have hR := resolve_shape st uid dn hU
    cases m with
    | join =>
      rcases hR with ⟨hru, hrc⟩ | ⟨hru, hrc⟩
      · have hg : containsUser (valuesOf (resolveMemberUser st uid dn).1.users dn)
            ⟨uid, dn⟩ = false := by
          rw [hru]
          rfl
        refine ih _ (Or.inr ⟨?_, ?_⟩) ?_
        · simp [join_users, join_userNames, lookupName_setName, hg, hru, valuesOf, containsUser]
        · simp [join_conns, hg, hru, valuesOf, containsUser]
        · rw [join_usersLeft]
          exact hL
      · have hg : containsUser (valuesOf (resolveMemberUser st uid dn).1.users dn)
            ⟨uid, dn⟩ = true := by
          rw [hru]
          simp [valuesOf, containsUser]
        have hconn : uid ∈ st.renameConnections := by
          rw [resolve_conns] at hrc
          exact hrc
        refine ih _ (Or.inr ⟨?_, ?_⟩) ?_
        · simp [join_users, join_userNames, lookupName_setName, hg, hru, valuesOf, containsUser]
        · simp [join_conns, hg, hru, hconn, valuesOf, containsUser]
        · rw [join_usersLeft]
          exact hL
    | leave =>
      have hXusers : ((processStateEvent st
          ⟨0, EventPayload.roomMember uid dn MembershipType.leave⟩).1).users = [] := by
        rcases hR with ⟨hru, _⟩ | ⟨hru, _⟩
        · have hg : containsUser (valuesOf (resolveMemberUser st uid dn).1.users dn)
              ⟨uid, dn⟩ = false := by
            rw [hru]
            rfl
          simp [leave_users, hg, hru, valuesOf, containsUser]
        · have hg : containsUser (valuesOf (resolveMemberUser st uid dn).1.users dn)
              ⟨uid, dn⟩ = true := by
            rw [hru]
            simp [valuesOf, containsUser]
          simp [leave_users, hg, hru, removeUser, valuesOf, containsUser]
      refine ih _ (Or.inl ⟨hXusers, ?_⟩) ?_
      · rw [leave_conns]
        simp
      · rw [leave_usersLeft]
        rcases hL with hL | ⟨d, hL⟩
        · rw [hL]
          simp [containsUser]
        · rw [hL]
          simp [containsUser]
    | invite =>
      rw [processStateEvent_invite]
      refine ih _ ?_ ?_
      · rcases hR with ⟨hru, hrc⟩ | ⟨hru, hrc⟩
        · exact Or.inl ⟨hru, hrc⟩
        · refine Or.inr ⟨?_, hrc⟩
          rw [resolve_userNames, lookupName_setName]
          exact hru
      · rw [resolve_usersLeft]
        exact hL

/-- Disjointness of registry and left list for the user is preserved by any
membership sequence (arbitrary display names) in which no Join follows a
Leave, starting from the tracked single-user shapes with the user not yet
departed-and-rejoined. -/
lemma c1_disjoint (uid : String) :
    ∀ (seq : List (MembershipType × String)) (st : RoomState),
      ((st.users = [] ∧ uid ∉ st.renameConnections) ∨
        (st.users = [(lookupName st.userNames uid, ⟨uid, lookupName st.userNames uid⟩)]
          ∧ uid ∈ st.renameConnections)) →
      (st.usersLeft = [] ∨ ∃ d, st.usersLeft = [⟨uid, d⟩]) →
      noJoinAfterLeave (seq.map Prod.fst) = true →
      (st.usersLeft ≠ [] →
        (seq.map Prod.fst).all (fun x => decide (x ≠ MembershipType.join)) = true) →
      ¬(registryContains st.users uid = true ∧ listContainsId st.usersLeft uid = true) →
      ¬(registryContains
          (applyStateEvents st
            (seq.map (fun p => ⟨0, EventPayload.roomMember uid p.2 p.1⟩))).users uid = true ∧
        listContainsId
          (applyStateEvents st
            (seq.map (fun p => ⟨0, EventPayload.roomMember uid p.2 p.1⟩))).usersLeft
          uid = true) := by
  intro seq
  induction seq with
  | nil => exact fun st _ _ _ _ hdisj => hdisj
  | cons p rest ih =>
    intro st hU hL hn h4 hdisj
    obtain ⟨m, dn⟩ := p
    simp only [List.map_cons, applyStateEvents_cons] at *
    have hR := resolve_shape st uid dn hU
    cases m with
    | join =>
      have hLnil : st.usersLeft = [] := by
        by_cases hemp : st.usersLeft = []
        · exact hemp
        · exact absurd (h4 hemp) (by simp)
      have hn' : noJoinAfterLeave (rest.map Prod.fst) = true := by
        simpa [noJoinAfterLeave] using hn
      have hXleft : ((processStateEvent st
          ⟨0, EventPayload.roomMember uid dn MembershipType.join⟩).1).usersLeft = [] := by
        rw [join_usersLeft]
        exact hLnil
      rcases hR with ⟨hru, hrc⟩ | ⟨hru, hrc⟩
      · have hg : containsUser (valuesOf (resolveMemberUser st uid dn).1.users dn)
            ⟨uid, dn⟩ = false := by
          rw [hru]
          rfl
        refine ih _ (Or.inr ⟨?_, ?_⟩) ?_ hn' ?_ ?_
        · simp [join_users, join_userNames, lookupName_setName, hg, hru, valuesOf, containsUser]
        · simp [join_conns, hg, hru, valuesOf, containsUser]
        · rw [hXleft]
          exact Or.inl rfl
        · intro h
          exact absurd hXleft h
        · intro hand
          rw [hXleft] at hand
          simp [listContainsId] at hand
      · have hg : containsUser (valuesOf (resolveMemberUser st uid dn).1.users dn)
            ⟨uid, dn⟩ = true := by
          rw [hru]
          simp [valuesOf, containsUser]
        have hconn : uid ∈ st.renameConnections := by
          rw [resolve_conns] at hrc
          exact hrc
        refine ih _ (Or.inr ⟨?_, ?_⟩) ?_ hn' ?_ ?_
        · simp [join_users, join_userNames, lookupName_setName, hg, hru, valuesOf, containsUser]
        · simp [join_conns, hg, hru, hconn, valuesOf, containsUser]
        · rw [hXleft]
          exact Or.inl rfl
        · intro h
          exact absurd hXleft h
        · intro hand
          rw [hXleft] at hand
          simp [listContainsId] at hand
    | leave =>
      have hn1 : (rest.map Prod.fst).all (fun x => decide (x ≠ MembershipType.join)) = true := by
        have h := hn
        simp [noJoinAfterLeave] at h
        simpa using h.1
      have hn' : noJoinAfterLeave (rest.map Prod.fst) = true := by
        have h := hn
        simp [noJoinAfterLeave] at h
        exact h.2
      have hXusers : ((processStateEvent st
          ⟨0, EventPayload.roomMember uid dn MembershipType.leave⟩).1).users = [] := by
        rcases hR with ⟨hru, _⟩ | ⟨hru, _⟩
        · have hg : containsUser (valuesOf (resolveMemberUser st uid dn).1.users dn)
              ⟨uid, dn⟩ = false := by
            rw [hru]
            rfl
          simp [leave_users, hg, hru, valuesOf, containsUser]
        · have hg : containsUser (valuesOf (resolveMemberUser st uid dn).1.users dn)
              ⟨uid, dn⟩ = true := by
            rw [hru]
            simp [valuesOf, containsUser]
          simp [leave_users, hg, hru, removeUser, valuesOf, containsUser]
      refine ih _ (Or.inl ⟨hXusers, ?_⟩) ?_ hn' ?_ ?_
      · rw [leave_conns]
        simp
      · rw [leave_usersLeft]
        rcases hL with hL | ⟨d, hL⟩
        · rw [hL]
          simp [containsUser]
        · rw [hL]
          simp [containsUser]
      · intro _
        exact hn1
      · intro hand
        rw [hXusers] at hand
        simp [registryContains] at hand
    | invite =>
      have hn' : noJoinAfterLeave (rest.map Prod.fst) = true := by
        simpa [noJoinAfterLeave] using hn
      rw [processStateEvent_invite]
      have hXleft : (resolveMemberUser st uid dn).1.usersLeft = st.usersLeft :=
        resolve_usersLeft st uid dn
      refine ih _ ?_ ?_ hn' ?_ ?_
      · rcases hR with ⟨hru, hrc⟩ | ⟨hru, hrc⟩
        · exact Or.inl ⟨hru, hrc⟩
        · refine Or.inr ⟨?_, hrc⟩
          rw [resolve_userNames, lookupName_setName]
          exact hru
      · rw [hXleft]
        exact hL
      · intro h
        rw [hXleft] at h
        have := h4 h
        simpa using this
      · intro hand
        rw [hXleft] at hand
        rcases hU with ⟨hu, hc⟩ | ⟨hu, hc⟩
        · have : (resolveMemberUser st uid dn).1.users = st.users := by
            simp [resolveMemberUser, renameUser, hc]
          rw [this, hu] at hand
          simp [registryContains] at hand
        · apply hdisj
          refine ⟨?_, hand.2⟩
          rw [hu]
          simp [registryContains]

/-- C1 (counterexample): processing Join, Leave, Join for `@u:s` on a fresh
room leaves the user simultaneously in the membership registry and in the
left-users list — the Join branch never removes a rejoining user from the
left list, so the two are not mutually exclusive. -/
theorem C1_counterexample :
    registryContains
        (applyStateEvents (initRoom "@me:s" "!r:s") rejoinSeq).users "@u:s" = true ∧
    containsUser
        (applyStateEvents (initRoom "@me:s" "!r:s") rejoinSeq).usersLeft
        ⟨"@u:s", "U"⟩ = true := by
  exact ⟨rfl, rfl⟩

/-- C1 (amended): over any sequence of `RoomMember` events for one user,
each carrying its own display name, processed on a fresh room, the registry
and the left-users list each contain the user at most once; and they are
mutually exclusive provided no Join occurs after a Leave in the sequence (a
user who leaves and then rejoins is in both). -/
theorem C1_member_lists (myId rid uid : String) (seq : List (MembershipType × String)) :
    registryCount
        (applyStateEvents (initRoom myId rid)
          (seq.map (fun p => ⟨0, EventPayload.roomMember uid p.2 p.1⟩))).users uid ≤ 1 ∧
    leftCount
        (applyStateEvents (initRoom myId rid)
          (seq.map (fun p => ⟨0, EventPayload.roomMember uid p.2 p.1⟩))).usersLeft uid ≤ 1 ∧
    (noJoinAfterLeave (seq.map Prod.fst) = true →
      ¬(registryContains
          (applyStateEvents (initRoom myId rid)
            (seq.map (fun p => ⟨0, EventPayload.roomMember uid p.2 p.1⟩))).users uid = true ∧
        listContainsId
          (applyStateEvents (initRoom myId rid)
            (seq.map (fun p => ⟨0, EventPayload.roomMember uid p.2 p.1⟩))).usersLeft
          uid = true)) := by
  have hshape := c1_shape uid seq (initRoom myId rid)
    (Or.inl ⟨rfl, by simp [initRoom]⟩) (Or.inl rfl)
  refine ⟨?_, ?_, ?_⟩
  · rcases hshape.1 with ⟨h, _⟩ | ⟨h, _⟩ <;> simp [registryCount, h]
  · rcases hshape.2 with h | ⟨d, h⟩ <;> simp [leftCount, h]
  · intro hn
    refine c1_disjoint uid seq (initRoom myId rid)
      (Or.inl ⟨rfl, by simp [initRoom]⟩) (Or.inl rfl) hn ?_ ?_
    · intro h
      exact absurd rfl h
    · simp [initRoom, registryContains, listContainsId]

/-- Witness for C1 (amended): Join under the name `"A"` followed by Leave
under the name `"B"` — the rename path moves the registry binding, the
Leave still finds the user, and the lists end disjoint. -/
theorem C1_witness :
    ¬(registryContains
        (applyStateEvents (initRoom "@me:s" "!r:s")
          ([(MembershipType.join, "A"), (MembershipType.leave, "B")].map
            (fun p => ⟨0, EventPayload.roomMember "@u:s" p.2 p.1⟩))).users "@u:s" = true ∧
      listContainsId
        (applyStateEvents (initRoom "@me:s" "!r:s")
          ([(MembershipType.join, "A"), (MembershipType.leave, "B")].map
            (fun p => ⟨0, EventPayload.roomMember "@u:s" p.2 p.1⟩))).usersLeft
        "@u:s" = true) :=
  (C1_member_lists "@me:s" "!r:s" "@u:s"
    [(MembershipType.join, "A"), (MembershipType.leave, "B")]).2.2 (by decide)
